import Mathlib

/-!
Verification of the Hyperliquid async client (`src/client.py`).

The Python source is shallowly embedded below.  Pure helper functions
(`float_to_wire`, `get_timestamp_ms`) become Lean functions on exact
rationals; fallible code paths (Python exceptions: `KeyError`,
`ValueError`, `OverflowError`, hex-decode failures) become `Option`.
External cryptographic primitives that the source merely calls
(`msgpack.packb`, `eth_utils.keccak`, the `eth_account` wallet signer)
are not code of this repository; they are passed in as explicit function
parameters, so every theorem quantifies over them.  Machine floats are
modelled as exact rationals together with a negative-zero flag
(`PyFloat`); `"{:.8f}"` formatting is round-half-even to eight
fractional digits, which is the correctly-rounded behaviour of CPython's
float formatting on the exact value of the double.
-/

/-! ### Small character / digit helpers -/

/-- The ten decimal digit characters. -/
def decDigits : List Char := ['0', '1', '2', '3', '4', '5', '6', '7', '8', '9']

/-- The sixteen lowercase hexadecimal digit characters (Python's `hex()`
is lowercase). -/
def lowHexDigits : List Char :=
  decDigits ++ ['a', 'b', 'c', 'd', 'e', 'f']

/-- `c` is a decimal digit character. -/
def isDigitCh (c : Char) : Bool := decDigits.contains c

/-- `c` is a lowercase hexadecimal digit character. -/
def isHexCh (c : Char) : Bool := lowHexDigits.contains c

/-- The decimal digit character for `k < 10`. -/
def digitCh (k : ℕ) : Char := decDigits.getD k '*'

/-- The lowercase hexadecimal digit character for `k < 16`. -/
def hexCh (k : ℕ) : Char := lowHexDigits.getD k '*'

/-- Fuel-driven accumulation of the decimal digits of `n` (most
significant first).  The fuel only bounds the recursion depth; any
`fuel ≥ n` gives the true digit string. -/
def natDigitsAux : ℕ → ℕ → List Char → List Char
  | 0, _, acc => acc
  | fuel + 1, n, acc =>
    if n = 0 then acc else natDigitsAux fuel (n / 10) (digitCh (n % 10) :: acc)

/-- Decimal digit characters of `n`, as Python's `str(n)` prints a
nonnegative integer. -/
def natChars (n : ℕ) : List Char :=
  if n = 0 then ['0'] else natDigitsAux n n []

/-- Fuel-driven accumulation of the hexadecimal digits of `n`. -/
def natHexAux : ℕ → ℕ → List Char → List Char
  | 0, _, acc => acc
  | fuel + 1, n, acc =>
    if n = 0 then acc else natHexAux fuel (n / 16) (hexCh (n % 16) :: acc)

/-- Lowercase hexadecimal digit characters of `n`, minimal width, as
Python's `hex(n)` prints after the `0x`. -/
def natHexChars (n : ℕ) : List Char :=
  if n = 0 then ['0'] else natHexAux n n []

/-! ### Embedding of `float_to_wire` (src/client.py lines 16-23)

```
def float_to_wire(x: float) -> str:
    rounded = "{:.8f}".format(x)
    if abs(float(rounded) - x) >= 1e-12:
        raise ValueError("float_to_wire causes rounding", x)
    if rounded == "-0":
        rounded = "0"
    normalized = Decimal(rounded).normalize()
    return f"{normalized:f}"
```
-/

/-- A Python float, modelled as its exact rational value plus a flag
distinguishing `-0.0` from `0.0` (the flag is only consulted when the
value is zero). -/
structure PyFloat where
  val : ℚ
  negZero : Bool
deriving DecidableEq

/-- The sign bit of a Python float: negative values, and negative zero. -/
def pySignbit (x : PyFloat) : Bool :=
  if x.val = 0 then x.negZero else decide (x.val < 0)

/-- Floor of a rational, computed as floor division of numerator by
denominator. -/
def ratFloor (q : ℚ) : ℤ := Int.fdiv q.num q.den

/-- Round a rational to the nearest integer, ties to even — the rounding
CPython's correctly-rounded float formatting applies to the exact value
of the double. -/
def roundHalfEvenQ (q : ℚ) : ℤ :=
  let f := ratFloor q
  let r := q - (f : ℚ)
  if r < 1 / 2 then f
  else if 1 / 2 < r then f + 1
  else if f % 2 = 0 then f else f + 1

/-- The characters of `"{:.8f}"` formatting: optional sign, integer
digits, a dot, exactly eight fractional digits (`n` is the rounded value
scaled by `10^8`). -/
def fixed8Chars (sign : Bool) (n : ℕ) : List Char :=
  let ip := natChars (n / 100000000)
  let fp := natChars (n % 100000000)
  let fpad := List.replicate (8 - fp.length) '0' ++ fp
  (if sign then ['-'] else []) ++ ip ++ '.' :: fpad

/-- `"{:.8f}".format(x)` as a string. -/
def fixed8Str (sign : Bool) (n : ℕ) : String := String.mk (fixed8Chars sign n)

/-- The exact value of `x` rounded to eight fractional digits: the value
of `float(rounded)` in the source (decimal-to-float parsing is modelled
exactly). -/
def round8val (x : PyFloat) : ℚ :=
  let n := (roundHalfEvenQ (|x.val| * 10 ^ 8)).toNat
  (if pySignbit x then -1 else 1) * (n : ℚ) / 10 ^ 8

/-- Split a character list at its first dot. -/
def splitAtDot : List Char → List Char × Option (List Char)
  | [] => ([], none)
  | c :: rest =>
    if c = '.' then ([], some rest)
    else
      let p := splitAtDot rest
      (c :: p.1, p.2)

/-- Drop trailing `'0'` characters. -/
def trimZeros (l : List Char) : List Char :=
  (l.reverse.dropWhile (fun c => c = '0')).reverse

/-- `Decimal(s).normalize()` followed by `f"{·:f}"` formatting, for the
fixed-point strings produced by line 17 of the source (at most one dot,
no exponent): trailing zeros of the fractional part are stripped, and
the dot disappears when nothing is left behind it.  A zero mantissa
keeps its sign, exactly as `decimal.Decimal` does (`"-0.00000000" ↦ "-0"`). -/
def decimalNormalize (s : String) : String :=
  match splitAtDot s.data with
  | (i, none) => String.mk i
  | (i, some f) =>
    let f' := trimZeros f
    if f' = [] then String.mk i else String.mk (i ++ '.' :: f')

/-- `float_to_wire` (src/client.py lines 16-23).  `none` models the
raised `ValueError("float_to_wire causes rounding", x)`. -/
def float_to_wire (x : PyFloat) : Option String :=
  let n := (roundHalfEvenQ (|x.val| * 10 ^ 8)).toNat
  let rounded := fixed8Str (pySignbit x) n
  if 1 / 10 ^ 12 ≤ |round8val x - x.val| then none
  else
    let rounded' := if rounded = "-0" then "0" else rounded
    some (decimalNormalize rounded')

/-- The output format claimed by the spec: only digits, a dot and a
minus sign (hence plain fixed-point text, never scientific notation), no
plus sign and no exponent character anywhere, and no insignificant
trailing zero after a dot.  Decidable, so concrete outputs can be
checked by evaluation. -/
def plainDecimal (s : String) : Prop :=
  (∀ c ∈ s.data, isDigitCh c = true ∨ c = '.' ∨ c = '-') ∧
  (∀ c ∈ s.data, c ≠ '+' ∧ c ≠ 'e' ∧ c ≠ 'E') ∧
  ('.' ∈ s.data → s.data.getLast? ≠ some '0')

instance (s : String) : Decidable (plainDecimal s) := by
  unfold plainDecimal; infer_instance

/-! ### Lemmas about the digit machinery -/

theorem isDigitCh_digitCh {k : ℕ} (h : k < 10) : isDigitCh (digitCh k) = true := by
  interval_cases k <;> decide

theorem mem_decDigits_of_isDigitCh {c : Char} (h : isDigitCh c = true) : c ∈ decDigits := by
  unfold isDigitCh at h
  simpa [List.contains, List.elem_iff] using h

theorem isDigitCh_ne_special {c : Char} (h : isDigitCh c = true) :
    c ≠ '.' ∧ c ≠ '-' ∧ c ≠ '+' ∧ c ≠ 'e' ∧ c ≠ 'E' := by
  have hc := mem_decDigits_of_isDigitCh h
  fin_cases hc <;> decide

theorem mem_natDigitsAux {fuel : ℕ} : ∀ {n : ℕ} {acc : List Char},
    (∀ c ∈ acc, isDigitCh c = true) → ∀ c ∈ natDigitsAux fuel n acc, isDigitCh c = true := by
  induction fuel with
  | zero => intro n acc hacc c hc; exact hacc c hc
  | succ fuel ih =>
    intro n acc hacc c hc
    rw [natDigitsAux] at hc
    split at hc
    · exact hacc c hc
    · refine ih ?_ c hc
      intro d hd
      rcases List.mem_cons.mp hd with h | h
      · exact h ▸ isDigitCh_digitCh (Nat.mod_lt n (by decide))
      · exact hacc d h

theorem mem_natChars {n : ℕ} : ∀ c ∈ natChars n, isDigitCh c = true := by
  unfold natChars
  split
  · intro c hc
    rw [List.mem_singleton] at hc
    subst hc; decide
  · exact mem_natDigitsAux (by simp)

theorem splitAtDot_eq {l₁ l₂ : List Char} (h : '.' ∉ l₁) :
    splitAtDot (l₁ ++ '.' :: l₂) = (l₁, some l₂) := by
  induction l₁ with
  | nil => simp [splitAtDot]
  | cons c t ih =>
    have hc : ¬ c = '.' := fun h' => h (h' ▸ List.mem_cons_self c t)
    have ht : '.' ∉ t := fun h' => h (List.mem_cons_of_mem c h')
    rw [List.cons_append, splitAtDot, if_neg hc, ih ht]

theorem mem_trimZeros {l : List Char} {c : Char} (h : c ∈ trimZeros l) : c ∈ l := by
  unfold trimZeros at h
  rw [List.mem_reverse] at h
  exact List.mem_reverse.mp (List.Sublist.mem h (List.dropWhile_sublist _))

theorem head_dropWhile_ne {p : Char → Bool} :
    ∀ (l : List Char) (a : Char), (l.dropWhile p).head? = some a → p a = false := by
  intro l
  induction l with
  | nil => simp [List.dropWhile]
  | cons c t ih =>
    intro a h
    rw [List.dropWhile_cons] at h
    split at h
    · exact ih a h
    · next hp =>
      simp only [List.head?_cons, Option.some.injEq] at h
      subst h
      simpa using hp

theorem trimZeros_getLast {l : List Char} (_ : trimZeros l ≠ []) :
    (trimZeros l).getLast? ≠ some '0' := by
  unfold trimZeros at *
  rw [List.getLast?_reverse]
  intro hc
  have := head_dropWhile_ne (p := fun c => c = '0') l.reverse '0' hc
  simp at this

theorem decimalNormalize_of_splitAtDot {s : String} {i f : List Char}
    (h : splitAtDot s.data = (i, some f)) :
    decimalNormalize s =
      if trimZeros f = [] then String.mk i else String.mk (i ++ '.' :: trimZeros f) := by
  unfold decimalNormalize
  rw [h]

theorem plainDecimal_normalize_fixed8 (sign : Bool) (n : ℕ) :
    plainDecimal (decimalNormalize (fixed8Str sign n)) := by
  have hpre : ∀ c ∈ (if sign then ['-'] else []) ++ natChars (n / 100000000),
      isDigitCh c = true ∨ c = '-' := by
    intro c hc
    rcases List.mem_append.mp hc with h | h
    · right
      cases sign <;> simp_all
    · left; exact mem_natChars c h
  have hfpad : ∀ c ∈ List.replicate (8 - (natChars (n % 100000000)).length) '0' ++
      natChars (n % 100000000), isDigitCh c = true := by
    intro c hc
    rcases List.mem_append.mp hc with h | h
    · rw [(List.mem_replicate.mp h).2]; decide
    · exact mem_natChars c h
  have hdot : '.' ∉ (if sign then ['-'] else []) ++ natChars (n / 100000000) := by
    intro hc
    rcases hpre '.' hc with h | h
    · exact (isDigitCh_ne_special h).1 rfl
    · exact absurd h (by decide)
  have hsd : (fixed8Str sign n).data =
      ((if sign then ['-'] else []) ++ natChars (n / 100000000)) ++ '.' ::
      (List.replicate (8 - (natChars (n % 100000000)).length) '0' ++
        natChars (n % 100000000)) := by
    simp [fixed8Str, fixed8Chars, List.append_assoc]
  set pre := (if sign then ['-'] else []) ++ natChars (n / 100000000) with hpre_def
  set fpad := List.replicate (8 - (natChars (n % 100000000)).length) '0' ++
      natChars (n % 100000000) with hfpad_def
  rw [decimalNormalize_of_splitAtDot (by rw [hsd]; exact splitAtDot_eq hdot)]
  by_cases hf : trimZeros fpad = []
  · rw [if_pos hf]
    refine ⟨?_, ?_, ?_⟩
    · intro c hc
      rcases hpre c hc with h | h
      · exact Or.inl h
      · exact Or.inr (Or.inr h)
    · intro c hc
      rcases hpre c hc with h | h
      · exact ⟨(isDigitCh_ne_special h).2.2.1, (isDigitCh_ne_special h).2.2.2.1,
          (isDigitCh_ne_special h).2.2.2.2⟩
      · subst h; exact ⟨by decide, by decide, by decide⟩
    · intro hc
      exact absurd hc hdot
  · rw [if_neg hf]
    refine ⟨?_, ?_, ?_⟩
    · intro c hc
      simp only [String.mk, List.mem_append, List.mem_cons] at hc
      rcases hc with h | h | h
      · rcases hpre c h with h' | h'
        · exact Or.inl h'
        · exact Or.inr (Or.inr h')
      · exact Or.inr (Or.inl h)
      · exact Or.inl (hfpad c (mem_trimZeros h))
    · intro c hc
      simp only [String.mk, List.mem_append, List.mem_cons] at hc
      rcases hc with h | h | h
      · rcases hpre c h with h' | h'
        · exact ⟨(isDigitCh_ne_special h').2.2.1, (isDigitCh_ne_special h').2.2.2.1,
            (isDigitCh_ne_special h').2.2.2.2⟩
        · subst h'; exact ⟨by decide, by decide, by decide⟩
      · subst h; exact ⟨by decide, by decide, by decide⟩
      · have h' := hfpad c (mem_trimZeros h)
        exact ⟨(isDigitCh_ne_special h').2.2.1, (isDigitCh_ne_special h').2.2.2.1,
          (isDigitCh_ne_special h').2.2.2.2⟩
    · intro _
      have hlast : ((pre ++ '.' :: trimZeros fpad) : List Char).getLast? =
          (trimZeros fpad).getLast? := by
        rw [List.getLast?_append, List.getLast?_cons]
        rcases hx : (trimZeros fpad).getLast? with _ | a
        · exact absurd (List.getLast?_eq_none_iff.mp hx) hf
        · simp
      rw [show ((String.mk (pre ++ '.' :: trimZeros fpad)).data) =
          pre ++ '.' :: trimZeros fpad from rfl, hlast]
      exact trimZeros_getLast hf

/-- C5: for every finite float `x`, `float_to_wire` fails (raises the
precision `ValueError`) if and only if the value of `x` rounded to 8
fractional digits differs from `x` by at least `1e-12` in absolute
terms; when it succeeds, its output is plain fixed-point decimal text
with insignificant trailing zeros stripped, never scientific notation
and never a leading plus sign. -/
theorem float_to_wire_precision_and_format (x : PyFloat) :
    (float_to_wire x = none ↔ 1 / 10 ^ 12 ≤ |round8val x - x.val|) ∧
    (∀ s, float_to_wire x = some s → plainDecimal s) := by
  have hunf : float_to_wire x =
      if 1 / 10 ^ 12 ≤ |round8val x - x.val| then none
      else some (decimalNormalize
        (if fixed8Str (pySignbit x) ((roundHalfEvenQ (|x.val| * 10 ^ 8)).toNat) = "-0"
          then "0"
          else fixed8Str (pySignbit x) ((roundHalfEvenQ (|x.val| * 10 ^ 8)).toNat))) := rfl
  by_cases h : 1 / 10 ^ 12 ≤ |round8val x - x.val|
  · rw [hunf, if_pos h]
    exact ⟨⟨fun _ => h, fun _ => rfl⟩, fun s hs => absurd hs (by simp)⟩
  · rw [hunf, if_neg h]
    refine ⟨⟨fun hn => absurd hn (by simp), fun hc => absurd hc h⟩, fun s hs => ?_⟩
    rw [Option.some_inj] at hs
    subst hs
    split
    -- the source's (dead) `rounded == "-0"` branch would return "0"
    · decide
    · exact plainDecimal_normalize_fixed8 _ _

/-- Witness for C5 at the concrete input `1e-8`: the call succeeds and
returns the plain fixed-point string `"0.00000001"`. -/
theorem float_to_wire_precision_and_format_witness :
    plainDecimal "0.00000001" :=
  (float_to_wire_precision_and_format ⟨1 / 100000000, false⟩).2 "0.00000001"
    (by with_unfolding_all rfl)

/-- C8 (refuting evidence): the code maps `-0.0` to the string `"-0"`,
not `"0"`.  The `"{:.8f}"`-formatted string is always `"-0.00000000"`,
so the source's `rounded == "-0"` normalization check (line 20) can
never fire, and `Decimal("-0.00000000").normalize()` keeps the sign. -/
theorem float_to_wire_negZero :
    float_to_wire ⟨0, true⟩ = some "-0" ∧ float_to_wire ⟨0, true⟩ ≠ some "0" := by
  have h : float_to_wire ⟨0, true⟩ = some "-0" := by with_unfolding_all rfl
  exact ⟨h, fun hc => absurd (h.symm.trans hc) (by decide)⟩

/-! ### Values, byte strings and hex utilities

Actions are the Python dict/list/str/int/bool values this client builds
and hands to `msgpack.packb`.  Dicts keep insertion order, as Python
dicts do.  Bytes are modelled as natural numbers below 256.
-/

/-- A Python value as passed to `msgpack.packb` and into the request
payloads: strings, integers, booleans, lists and (insertion-ordered)
string-keyed dicts. -/
inductive MPValue where
  | str (s : String)
  | int (n : ℤ)
  | bool (b : Bool)
  | arr (items : List MPValue)
  | map (pairs : List (String × MPValue))

/-- First-match lookup in an insertion-ordered dict. -/
def dictGet {α : Type} : List (String × α) → String → Option α
  | [], _ => none
  | (k, v) :: rest, key => if k = key then some v else dictGet rest key

/-- `d[key]` on an `MPValue`: only dicts can be indexed; a missing key
is Python's `KeyError`, modelled as `none`. -/
def mpGet (v : MPValue) (key : String) : Option MPValue :=
  match v with
  | .map pairs => dictGet pairs key
  | _ => none

/-- Big-endian base-256 digits of `n`, exactly `len` bytes (the shape of
`int.to_bytes(len, "big")` for in-range `n`). -/
def beBytes : ℕ → ℕ → List ℕ
  | 0, _ => []
  | len + 1, n => beBytes len (n / 256) ++ [n % 256]

/-- `n.to_bytes(len, "big")`: fails (Python `OverflowError`) for
negative `n` and for `n ≥ 256^len`. -/
def int_to_bytes_be (len : ℕ) (n : ℤ) : Option (List ℕ) :=
  if 0 ≤ n ∧ n < (256 : ℤ) ^ len then some (beBytes len n.toNat) else none

/-- Value of one hexadecimal digit character, either case
(`bytes.fromhex` is case-insensitive). -/
def hexDigitVal (c : Char) : Option ℕ :=
  if '0' ≤ c ∧ c ≤ '9' then some (c.toNat - 48)
  else if 'a' ≤ c ∧ c ≤ 'f' then some (c.toNat - 87)
  else if 'A' ≤ c ∧ c ≤ 'F' then some (c.toNat - 55)
  else none

/-- Decode hex digit pairs into bytes; fails on a non-hex character or
an odd number of digits (`bytes.fromhex` raising `ValueError`; the
whitespace tolerance of `bytes.fromhex` is irrelevant for addresses and
not modelled). -/
def hexPairsDecode : List Char → Option (List ℕ)
  | [] => some []
  | [_] => none
  | c₁ :: c₂ :: rest =>
    match hexDigitVal c₁, hexDigitVal c₂, hexPairsDecode rest with
    | some h, some l, some tl => some ((16 * h + l) :: tl)
    | _, _, _ => none

/-- `bytes.fromhex(s)`. -/
def hexDecode (s : String) : Option (List ℕ) := hexPairsDecode s.data

/-- `vault_address[2:] if vault_address.startswith("0x") else
vault_address` (src/client.py line 125). -/
def strip0x (s : String) : String :=
  match s.data with
  | '0' :: 'x' :: rest => String.mk rest
  | _ => s

/-- `eth_utils.to_hex` on a nonnegative integer: `0x` followed by the
minimal-width lowercase hexadecimal digits (`to_hex(0) = "0x0"`,
`to_hex(5) = "0x5"`). -/
def to_hex (n : ℕ) : String := String.mk ('0' :: 'x' :: natHexChars n)

/-! ### Embedding of `sign_l1_action` (src/client.py lines 118-155) -/

/-- The external serialization and hash primitives imported by the
source (`msgpack.packb`, `eth_utils.keccak`).  They are third-party
code, so they stay abstract: every theorem holds for any choice. -/
structure Crypto where
  packb : MPValue → List ℕ
  keccak : List ℕ → List ℕ

/-- One entry of an EIP-712 `types` list: `{"name": ..., "type": ...}`. -/
structure EIP712Field where
  name : String
  type : String
deriving DecidableEq

/-- The typed-data document the source builds in lines 128-150: the
fixed domain, the `types` dict in insertion order, the primary type, and
the phantom-agent message `{source, connectionId}`. -/
structure TypedDataDoc where
  domain_chainId : ℤ
  domain_name : String
  domain_verifyingContract : String
  domain_version : String
  types : List (String × List EIP712Field)
  primaryType : String
  message_source : String
  message_connectionId : List ℕ

/-- Lines 128-150: the phantom agent and the typed-data dict.  All
constants are literal in the source. -/
def mkTypedData (connectionId : List ℕ) (is_mainnet : Bool) : TypedDataDoc :=
  { domain_chainId := 1337
    domain_name := "Exchange"
    domain_verifyingContract := "0x0000000000000000000000000000000000000000"
    domain_version := "1"
    types := [("Agent", [⟨"source", "string"⟩, ⟨"connectionId", "bytes32"⟩]),
              ("EIP712Domain", [⟨"name", "string"⟩, ⟨"version", "string"⟩,
                                ⟨"chainId", "uint256"⟩, ⟨"verifyingContract", "address"⟩])]
    primaryType := "Agent"
    message_source := if is_mainnet then "a" else "b"
    message_connectionId := connectionId }

/-- The integer signature scalars and recovery id produced by the
external `eth_account` wallet (`wallet.sign_message(...)`). -/
structure SignedMsg where
  r : ℕ
  s : ℕ
  v : ℕ
deriving DecidableEq

/-- The signature dict returned to callers (line 155):
`{"r": to_hex(signed["r"]), "s": to_hex(signed["s"]), "v": signed["v"]}`. -/
structure SigStrings where
  r : String
  s : String
  v : ℕ
deriving DecidableEq

/-- Line 155. -/
def wireSignature (m : SignedMsg) : SigStrings := ⟨to_hex m.r, to_hex m.s, m.v⟩

/-- Lines 119-125: `msgpack.packb(action)`, then the nonce as 8
big-endian bytes, then the vault marker: a single `0x00` byte when no
vault address is set, else `0x01` followed by the hex-decoded address
bytes (optional `0x` stripped first). -/
def connectionData (C : Crypto) (action : MPValue) (nonce : ℤ)
    (vault_address : Option String) : Option (List ℕ) := do
  let nb ← int_to_bytes_be 8 nonce
  match vault_address with
  | none => pure (C.packb action ++ nb ++ [0x00])
  | some va => do
    let raw ← hexDecode (strip0x va)
    pure (C.packb action ++ nb ++ 0x01 :: raw)

/-- Line 126: `hash = keccak(data)`. -/
def connection_hash (C : Crypto) (action : MPValue) (nonce : ℤ)
    (vault_address : Option String) : Option (List ℕ) :=
  (connectionData C action nonce vault_address).map C.keccak

/-- `sign_l1_action` (src/client.py lines 118-155).  The wallet's
deterministic signing closure (key baked in, composed with
`encode_structured_data`) is the `wallet` parameter. -/
def sign_l1_action (C : Crypto) (wallet : TypedDataDoc → SignedMsg) (action : MPValue)
    (vault_address : Option String) (nonce : ℤ) (is_mainnet : Bool) : Option SigStrings := do
  let data ← connectionData C action nonce vault_address
  let h := C.keccak data
  pure (wireSignature (wallet (mkTypedData h is_mainnet)))

/-! ### Lemmas about bytes and hex -/

theorem beBytes_length : ∀ (len n : ℕ), (beBytes len n).length = len
  | 0, _ => rfl
  | len + 1, n => by
    rw [beBytes, List.length_append, beBytes_length len (n / 256)]
    rfl

theorem hexPairsDecode_length : ∀ (cs : List Char) (bs : List ℕ),
    hexPairsDecode cs = some bs → 2 * bs.length = cs.length
  | [], bs, h => by
    rw [hexPairsDecode] at h
    cases h
    rfl
  | [_], _, h => by
    rw [hexPairsDecode] at h
    exact absurd h (by simp)
  | c₁ :: c₂ :: rest, bs, h => by
    rw [hexPairsDecode] at h
    split at h
    · next v₁ v₂ tl _ _ hrest =>
      cases h
      have ih := hexPairsDecode_length rest tl hrest
      simp only [List.length_cons]
      omega
    · exact absurd h (by simp)

/-- Concrete instantiations of the external primitives, for evaluating
the pipeline on explicit inputs: serialization to the empty byte string
and the identity "hash". -/
def constCrypto : Crypto := ⟨fun _ => [], fun bs => bs⟩

/-- A concrete deterministic wallet closure returning the scalars
`r = 1`, `s = 1` and recovery id `27`. -/
def constWallet : TypedDataDoc → SignedMsg := fun _ => ⟨1, 1, 27⟩

/-- C1: for every action, nonce and optional vault address, the
connection hash is the Keccak digest of: the msgpack serialization of
the action, then the nonce as exactly 8 big-endian bytes, then marker
byte `0x00` when no vault address is set, or `0x01` followed by the 20
raw address bytes (hex-decoded, optional `0x` stripped) when one is
set.  The nonce must fit `to_bytes(8, "big")`, i.e. `0 ≤ n < 256^8`. -/
theorem connection_hash_spec (C : Crypto) (a : MPValue) (n : ℤ)
    (hn : 0 ≤ n ∧ n < (256 : ℤ) ^ 8) :
    (beBytes 8 n.toNat).length = 8 ∧
    connection_hash C a n none =
      some (C.keccak (C.packb a ++ beBytes 8 n.toNat ++ [0x00])) ∧
    (∀ va raw, hexDecode (strip0x va) = some raw →
      connection_hash C a n (some va) =
        some (C.keccak (C.packb a ++ beBytes 8 n.toNat ++ 0x01 :: raw))) ∧
    (∀ va raw, (strip0x va).data.length = 40 → hexDecode (strip0x va) = some raw →
      raw.length = 20) := by
  have hbytes : int_to_bytes_be 8 n = some (beBytes 8 n.toNat) := if_pos hn
  refine ⟨beBytes_length 8 n.toNat, ?_, ?_, ?_⟩
  · rw [connection_hash, connectionData, hbytes]
    rfl
  · intro va raw hraw
    rw [connection_hash, connectionData, hbytes]
    show ((hexDecode (strip0x va)).bind fun r =>
        some (C.packb a ++ beBytes 8 n.toNat ++ 0x01 :: r)).map C.keccak = _
    rw [hraw]
    rfl
  · intro va raw hlen hraw
    have := hexPairsDecode_length (strip0x va).data raw hraw
    omega

/-- Witness for C1: nonce 5 and a concrete 20-byte vault address. -/
theorem connection_hash_spec_witness :
    connection_hash constCrypto (MPValue.str "x") 5
        (some "0x00000000000000000000000000000000000000ff") =
      some [0, 0, 0, 0, 0, 0, 0, 5, 1,
            0, 0, 0, 0, 0, 0, 0, 0, 0, 0, 0, 0, 0, 0, 0, 0, 0, 0, 0, 255] ∧
    connection_hash constCrypto (MPValue.str "x") 5 none =
      some [0, 0, 0, 0, 0, 0, 0, 5, 0] := by
  have h := connection_hash_spec constCrypto (MPValue.str "x") 5 (by constructor <;> decide)
  constructor
  · rw [h.2.2.1 "0x00000000000000000000000000000000000000ff"
      [0, 0, 0, 0, 0, 0, 0, 0, 0, 0, 0, 0, 0, 0, 0, 0, 0, 0, 0, 255] (by decide)]
    decide
  · rw [h.2.1]
    decide

/-- C2: the typed-data document has exactly the mandated domain, the
single message type `Agent` with fields `source` then `connectionId` (in
that order; `EIP712Domain` is the domain type, not a message type), the
primary type `Agent`, and the message `{source: "a"/"b", connectionId:
hash}`. -/
theorem mkTypedData_spec (h : List ℕ) (mnet : Bool) :
    (mkTypedData h mnet).domain_chainId = 1337 ∧
    (mkTypedData h mnet).domain_name = "Exchange" ∧
    (mkTypedData h mnet).domain_verifyingContract =
      "0x0000000000000000000000000000000000000000" ∧
    (mkTypedData h mnet).domain_version = "1" ∧
    (mkTypedData h mnet).primaryType = "Agent" ∧
    ((mkTypedData h mnet).types.filter fun t => t.1 ≠ "EIP712Domain") =
      [("Agent", [⟨"source", "string"⟩, ⟨"connectionId", "bytes32"⟩])] ∧
    (mkTypedData h mnet).message_source = (if mnet then "a" else "b") ∧
    (mkTypedData h mnet).message_connectionId = h := by
  refine ⟨rfl, rfl, rfl, rfl, rfl, ?_, rfl, rfl⟩
  rfl

/-- C3: signing is deterministic — the embedded `sign_l1_action` is a
pure function of exactly the serialization/hash primitives, the wallet
closure (the signing key), the action, the vault address, the nonce and
the network flag; the source method reads no other state, so equal
inputs give equal signature triples. -/
theorem sign_l1_action_deterministic (C : Crypto) (wallet : TypedDataDoc → SignedMsg)
    (a₁ a₂ : MPValue) (v₁ v₂ : Option String) (n₁ n₂ : ℤ) (m₁ m₂ : Bool)
    (ha : a₁ = a₂) (hv : v₁ = v₂) (hn : n₁ = n₂) (hm : m₁ = m₂) :
    sign_l1_action C wallet a₁ v₁ n₁ m₁ = sign_l1_action C wallet a₂ v₂ n₂ m₂ := by
  subst ha hv hn hm
  rfl

/-- Witness for C3: two identical concrete calls produce the same
concrete triple. -/
theorem sign_l1_action_deterministic_witness :
    sign_l1_action constCrypto constWallet (MPValue.str "x") none 5 true =
      sign_l1_action constCrypto constWallet (MPValue.str "x") none 5 true ∧
    sign_l1_action constCrypto constWallet (MPValue.str "x") none 5 true =
      some ⟨"0x1", "0x1", 27⟩ :=
  ⟨sign_l1_action_deterministic constCrypto constWallet _ _ _ _ _ _ _ _ rfl rfl rfl rfl,
    by rfl⟩

/-! ### Lemmas about `to_hex` -/

theorem isHexCh_hexCh {k : ℕ} (h : k < 16) : isHexCh (hexCh k) = true := by
  interval_cases k <;> decide

theorem mem_natHexAux {fuel : ℕ} : ∀ {n : ℕ} {acc : List Char},
    (∀ c ∈ acc, isHexCh c = true) → ∀ c ∈ natHexAux fuel n acc, isHexCh c = true := by
  induction fuel with
  | zero => intro n acc hacc c hc; exact hacc c hc
  | succ fuel ih =>
    intro n acc hacc c hc
    rw [natHexAux] at hc
    split at hc
    · exact hacc c hc
    · refine ih ?_ c hc
      intro d hd
      rcases List.mem_cons.mp hd with h | h
      · exact h ▸ isHexCh_hexCh (Nat.mod_lt n (by decide))
      · exact hacc d h

theorem mem_natHexChars {n : ℕ} : ∀ c ∈ natHexChars n, isHexCh c = true := by
  unfold natHexChars
  split
  · intro c hc
    rw [List.mem_singleton] at hc
    subst hc; decide
  · exact mem_natHexAux (by simp)

theorem natHexAux_length_le : ∀ (fuel : ℕ) {n k : ℕ} (acc : List Char),
    n ≤ fuel → n < 16 ^ k → (natHexAux fuel n acc).length ≤ acc.length + k := by
  intro fuel
  induction fuel with
  | zero =>
    intro n k acc _ _
    rw [natHexAux]
    omega
  | succ fuel ih =>
    intro n k acc hf hk
    rw [natHexAux]
    split
    · omega
    · next hn =>
      have hk0 : k ≠ 0 := by
        rintro rfl
        rw [pow_zero] at hk
        omega
      obtain ⟨k', rfl⟩ : ∃ k', k = k' + 1 := ⟨k - 1, by omega⟩
      have h1 : n / 16 ≤ fuel := by
        have := Nat.div_lt_self (Nat.pos_of_ne_zero hn) (by omega : 1 < 16)
        omega
      have h2 : n / 16 < 16 ^ k' := by
        rw [Nat.div_lt_iff_lt_mul (by omega : 0 < 16)]
        calc n < 16 ^ (k' + 1) := hk
          _ = 16 ^ k' * 16 := by ring
      have := ih (hexCh (n % 16) :: acc) h1 h2
      simp only [List.length_cons] at this
      omega

theorem natHexChars_length_le {n k : ℕ} (hk : 1 ≤ k) (h : n < 16 ^ k) :
    (natHexChars n).length ≤ k := by
  unfold natHexChars
  split
  · simpa using hk
  · have := natHexAux_length_le n (n := n) (k := k) [] le_rfl h
    simpa using this

/-- C7 as amended: on every successful signing call the returned `r` and
`s` are `0x`-prefixed minimal-width lowercase hexadecimal strings of the
wallet's signature scalars — at most 64 hex digits for 256-bit scalars
but fewer for smaller values, with no fixed-width zero padding — and the
triple is the wallet's output passed through unchanged (`v` is the raw
recovery id). -/
theorem sign_l1_action_signature_format (C : Crypto) (wallet : TypedDataDoc → SignedMsg)
    (a : MPValue) (va : Option String) (n : ℤ) (mnet : Bool) (sig : SigStrings)
    (hsig : sign_l1_action C wallet a va n mnet = some sig)
    (hbound : ∀ doc, (wallet doc).r < 16 ^ 64 ∧ (wallet doc).s < 16 ^ 64) :
    sig.r.data.take 2 = ['0', 'x'] ∧
    (∀ c ∈ sig.r.data.drop 2, isHexCh c = true) ∧
    sig.r.length ≤ 66 ∧
    (∀ m : SignedMsg, m.r < 16 → m.r ≠ 0 → (wireSignature m).r.length = 3) ∧
    sig.s.data.take 2 = ['0', 'x'] ∧
    (∀ c ∈ sig.s.data.drop 2, isHexCh c = true) ∧
    sig.s.length ≤ 66 ∧
    (∃ doc : TypedDataDoc, sig = wireSignature (wallet doc)) := by
  rw [sign_l1_action] at hsig
  rcases hd : connectionData C a n va with _ | data
  · rw [hd] at hsig
    exact absurd hsig (by simp)
  · rw [hd] at hsig
    set doc := mkTypedData (C.keccak data) mnet with hdoc
    have hsig' : wireSignature (wallet doc) = sig := Option.some.inj hsig
    have hr : sig.r = to_hex (wallet doc).r := by rw [← hsig']; rfl
    have hs : sig.s = to_hex (wallet doc).s := by rw [← hsig']; rfl
    refine ⟨?_, ?_, ?_, ?_, ?_, ?_, ?_, doc, hsig'.symm⟩
    · rw [hr]; rfl
    · intro c hc
      rw [hr] at hc
      exact mem_natHexChars c (by simpa using hc)
    · rw [hr]
      have := natHexChars_length_le (n := (wallet doc).r) (k := 64)
        (by omega) (hbound doc).1
      simp only [to_hex, String.length, List.length_cons]
      omega
    · intro m hm hm0
      rcases m with ⟨r, s, v⟩
      show (to_hex r).length = 3
      simp only at hm hm0
      interval_cases r
      all_goals first
        | exact absurd rfl hm0
        | rfl
    · rw [hs]; rfl
    · intro c hc
      rw [hs] at hc
      exact mem_natHexChars c (by simpa using hc)
    · rw [hs]
      have := natHexChars_length_le (n := (wallet doc).s) (k := 64)
        (by omega) (hbound doc).2
      simp only [to_hex, String.length, List.length_cons]
      omega

/-- Witness for C7's amended statement: a concrete successful call with
small scalars yields `r = s = "0x1"`, which is `0x`-prefixed, all hex,
and well under the 66-character bound. -/
theorem sign_l1_action_signature_format_witness :
    "0x1".data.take 2 = ['0', 'x'] ∧ "0x1".length ≤ 66 := by
  have h := sign_l1_action_signature_format constCrypto constWallet (MPValue.str "x")
    none 0 true ⟨"0x1", "0x1", 27⟩ (by rfl)
    (fun _ => ⟨by show (1 : ℕ) < 16 ^ 64; decide, by show (1 : ℕ) < 16 ^ 64; decide⟩)
  exact ⟨h.1, h.2.2.1⟩

/-- C7 counterexample: a successful signing call whose returned `r` is
the three-character string `"0x1"` — not a fixed-width 64-hex-digit
(32-byte) encoding.  `eth_utils.to_hex` on an integer produces
minimal-width hex, so small scalars yield short strings. -/
theorem sign_l1_action_not_fixed_width :
    sign_l1_action constCrypto constWallet (MPValue.str "x") none 0 true =
      some ⟨"0x1", "0x1", 27⟩ ∧
    ("0x1".data.drop 2).length ≠ 64 := by
  exact ⟨by rfl, by decide⟩

/-! ### Embedding of the client object and its operations
(src/client.py lines 13-14, 41-81, 157-270, 291-315)

The ambient wall clock (`time.time()`, seconds as an exact value) is an
explicit parameter `t`; network submission is modelled up to the
assembled `/exchange` payload.
-/

/-- Python `int()` truncation (toward zero) of an exact rational. -/
def pyInt (q : ℚ) : ℤ := Int.tdiv q.num q.den

/-- `get_timestamp_ms` (lines 13-14): `int(time.time() * 1000)`. -/
def get_timestamp_ms (t : ℚ) : ℤ := pyInt (t * 1000)

/-- The client's mutable attributes (lines 49-59 and 66-79).  The
config-derived wallet is the deterministic signing closure; `session`
and the logger carry no signing-relevant state and are omitted. -/
structure ClientState where
  base_url : String
  wallet : TypedDataDoc → SignedMsg
  address : String
  vault_address : Option String
  account_address : String
  coin_to_asset : List (String × ℕ)
  coin_info : List (String × MPValue)

/-- `__init__` (lines 42-64): fixed mainnet base url, wallet from the
configured key, `vault_address = None`, asset maps not yet populated. -/
def initClient (wallet : TypedDataDoc → SignedMsg) (account_address : String) : ClientState :=
  { base_url := "https://api.hyperliquid.xyz"
    wallet := wallet
    address := account_address
    vault_address := none
    account_address := account_address
    coin_to_asset := []
    coin_info := [] }

/-- `__aenter__` (lines 66-81): populate `coin_to_asset` with the
enumeration index of each universe entry and `coin_info` with its
metadata (each entry modelled as its `"name"` field paired with the
info dict).  No other attribute relevant to signing is assigned. -/
def aenter (st : ClientState) (univ : List (String × MPValue)) : ClientState :=
  { st with
    coin_to_asset := univ.enum.map fun p => (p.2.1, p.1)
    coin_info := univ }

/-- The assembled `/exchange` payload (lines 167-172). -/
structure Payload where
  action : MPValue
  nonce : ℤ
  signature : SigStrings
  vaultAddress : Option String

/-- The comparison `action["type"] != "usdClassTransfer"` (line 171),
as a test of the type tag. -/
def isUsdClassTransfer : MPValue → Bool
  | .str s => s = "usdClassTransfer"
  | _ => false

/-- `_post_action` (lines 157-174): sign with the client's vault
address and network flag, then assemble the payload; `vaultAddress` is
the client's vault address except for the `usdClassTransfer` type tag,
for which it is `None`.  Modelled up to the handoff to `post`. -/
def post_action (C : Crypto) (st : ClientState) (action : MPValue) (nonce : ℤ) :
    Option Payload := do
  let sig ← sign_l1_action C st.wallet action st.vault_address nonce
    (decide (st.base_url = "https://api.hyperliquid.xyz"))
  let t ← mpGet action "type"
  pure { action := action, nonce := nonce, signature := sig,
         vaultAddress := if isUsdClassTransfer t then none else st.vault_address }

/-- `place_order` (lines 176-205): build the order wire dict, generate
the nonce from the clock, build the order action, submit. -/
def place_order (C : Crypto) (st : ClientState) (name : String) (is_buy : Bool)
    (sz limit_px : PyFloat) (order_type : MPValue) (reduce_only : Bool) (t : ℚ) :
    Option Payload := do
  let asset ← dictGet st.coin_to_asset name
  let p ← float_to_wire limit_px
  let s ← float_to_wire sz
  let order_wire : MPValue := .map [("a", .int asset), ("b", .bool is_buy), ("p", .str p),
    ("s", .str s), ("r", .bool reduce_only), ("t", order_type)]
  let timestamp := get_timestamp_ms t
  let order_action : MPValue := .map [("type", .str "order"),
    ("orders", .arr [order_wire]), ("grouping", .str "na")]
  post_action C st order_action timestamp

/-- One entry of the `order_requests` argument of `place_orders`. -/
structure OrderRequest where
  coin : String
  is_buy : Bool
  sz : PyFloat
  limit_px : PyFloat
  reduce_only : Bool
  order_type : MPValue

/-- The order wire dict built for one request inside `place_orders`
(lines 210-220). -/
def orderRequestWire (st : ClientState) (r : OrderRequest) : Option MPValue := do
  let a ← dictGet st.coin_to_asset r.coin
  let p ← float_to_wire r.limit_px
  let s ← float_to_wire r.sz
  pure (.map [("a", .int a), ("b", .bool r.is_buy), ("p", .str p), ("s", .str s),
    ("r", .bool r.reduce_only), ("t", r.order_type)])

/-- `place_orders` (lines 207-233). -/
def place_orders (C : Crypto) (st : ClientState) (reqs : List OrderRequest) (t : ℚ) :
    Option Payload := do
  let wires ← reqs.mapM (orderRequestWire st)
  let timestamp := get_timestamp_ms t
  post_action C st (.map [("type", .str "order"), ("orders", .arr wires),
    ("grouping", .str "na")]) timestamp

/-- `cancel_order` (lines 235-251). -/
def cancel_order (C : Crypto) (st : ClientState) (name : String) (oid : ℤ) (t : ℚ) :
    Option Payload := do
  let a ← dictGet st.coin_to_asset name
  post_action C st (.map [("type", .str "cancel"),
    ("cancels", .arr [.map [("a", .int a), ("o", .int oid)]])]) (get_timestamp_ms t)

/-- One entry of the `cancel_requests` argument of `cancel_orders`. -/
structure CancelRequest where
  coin : String
  oid : ℤ

/-- `cancel_orders` (lines 253-270). -/
def cancel_orders (C : Crypto) (st : ClientState) (reqs : List CancelRequest) (t : ℚ) :
    Option Payload := do
  let cancels ← reqs.mapM fun c => do
    let a ← dictGet st.coin_to_asset c.coin
    pure (MPValue.map [("a", .int a), ("o", .int c.oid)])
  post_action C st (.map [("type", .str "cancel"), ("cancels", .arr cancels)])
    (get_timestamp_ms t)

/-- Read an integer out of an optional `MPValue` (the
`asset_info['maxLeverage']` access, which must produce a number). -/
def asInt : Option MPValue → Option ℤ
  | some (.int m) => some m
  | _ => none

/-- `update_leverage` (lines 291-315): look up the asset info, reject a
leverage above the cached maximum (the `ValueError`), then submit the
`updateLeverage` action with a clock-generated nonce. -/
def update_leverage (C : Crypto) (st : ClientState) (asset_name : String) (leverage : ℤ)
    (is_cross : Bool) (t : ℚ) : Option Payload := do
  let asset_info ← dictGet st.coin_info asset_name
  let max_leverage ← asInt (mpGet asset_info "maxLeverage")
  if leverage > max_leverage then none
  else do
    let a ← dictGet st.coin_to_asset asset_name
    post_action C st (.map [("type", .str "updateLeverage"), ("asset", .int a),
      ("isCross", .bool is_cross), ("leverage", .int leverage)]) (get_timestamp_ms t)

/-! ### The client's state transitions -/

/-- One observable client call: `__aenter__`, or one of the submission
operations.  None of the source methods assigns `vault_address` (or any
attribute besides the `__aenter__` asset maps), so the operations leave
the state unchanged. -/
inductive ClientStep (C : Crypto) : ClientState → ClientState → Prop where
  | enter (st : ClientState) (univ : List (String × MPValue)) :
      ClientStep C st (aenter st univ)
  | placeOrder (st : ClientState) (name : String) (is_buy : Bool) (sz limit_px : PyFloat)
      (order_type : MPValue) (reduce_only : Bool) (t : ℚ) : ClientStep C st st
  | placeOrders (st : ClientState) (reqs : List OrderRequest) (t : ℚ) : ClientStep C st st
  | cancelOrder (st : ClientState) (name : String) (oid : ℤ) (t : ℚ) : ClientStep C st st
  | cancelOrders (st : ClientState) (reqs : List CancelRequest) (t : ℚ) : ClientStep C st st
  | updateLeverage (st : ClientState) (name : String) (leverage : ℤ) (is_cross : Bool)
      (t : ℚ) : ClientStep C st st

/-! ### Embedding of `_handle_exception` (src/client.py lines 102-116) -/

/-- A parsed JSON value. -/
inductive JsonV where
  | null
  | str (s : String)
  | num (n : ℤ)
  | bool (b : Bool)
  | arr (items : List JsonV)
  | obj (fields : List (String × JsonV))

/-- An HTTP response as `_handle_exception` observes it: status code,
the parse of the body as JSON (`none` when decoding fails), the raw
body text, and the headers. -/
structure HResponse where
  status : ℕ
  body_json : Option JsonV
  body_text : String
  headers : List (String × String)

/-- A Python value stored in one of the loosely-typed `ClientError`
fields. -/
inductive ErrVal where
  | none
  | json (j : JsonV)
  | text (s : String)
  | headers (h : List (String × String))

/-- The `ClientError` constructor's positional fields (lines 28-34):
`(status_code, error_code, error_message, header, error_data)`. -/
structure ClientErrorE where
  status_code : ℕ
  error_code : ErrVal
  error_message : ErrVal
  header : ErrVal
  error_data : ErrVal

/-- What `_handle_exception` does: return, raise `ClientError`, raise
`ServerError`, or let an unhandled Python error escape (`AttributeError`
on a non-dict body, `KeyError` on a missing `"code"`/`"msg"`). -/
inductive HandleResult where
  | ok
  | clientError (e : ClientErrorE)
  | serverError (status : ℕ) (message : String)
  | uncaught

/-- `_handle_exception` (lines 102-116). -/
def handle_exception (r : HResponse) : HandleResult :=
  if r.status < 400 then .ok
  else if r.status < 500 then
    match r.body_json with
    | Option.none =>
      .clientError ⟨r.status, .none, .text r.body_text, .none, .headers r.headers⟩
    | some JsonV.null =>
      .clientError ⟨r.status, .none, .text r.body_text, .none, .headers r.headers⟩
    | some err =>
      match err with
      | .obj fields =>
        let error_data : ErrVal := match dictGet fields "data" with
          | some d => .json d
          | Option.none => .none
        match dictGet fields "code", dictGet fields "msg" with
        | some c, some m =>
          .clientError ⟨r.status, .json c, .json m, .headers r.headers, error_data⟩
        | _, _ => .uncaught
      | _ => .uncaught
  else .serverError r.status r.body_text

/-! ### Payload and nonce lemmas -/

theorem post_action_nonce (C : Crypto) (st : ClientState) (a : MPValue) (n : ℤ)
    (p : Payload) (hp : post_action C st a n = some p) : p.nonce = n := by
  unfold post_action at hp
  rcases hsig : sign_l1_action C st.wallet a st.vault_address n
      (decide (st.base_url = "https://api.hyperliquid.xyz")) with _ | sig
  · rw [hsig] at hp
    exact absurd hp (by simp)
  · rw [hsig] at hp
    rcases ht : mpGet a "type" with _ | tv
    · rw [ht] at hp
      exact absurd hp (by simp)
    · rw [ht] at hp
      rw [← Option.some.inj hp]

/-- C4: every assembled payload carries the action, the caller-side
nonce and the computed signature; `vaultAddress` is the client's
configured vault address for every type tag except
`"usdClassTransfer"`, for which it is `None` regardless of the
configured vault. -/
theorem post_action_payload_fields (C : Crypto) (st : ClientState) (a : MPValue) (n : ℤ)
    (p : Payload) (hp : post_action C st a n = some p) :
    p.action = a ∧ p.nonce = n ∧
    sign_l1_action C st.wallet a st.vault_address n
      (decide (st.base_url = "https://api.hyperliquid.xyz")) = some p.signature ∧
    (mpGet a "type" = some (MPValue.str "usdClassTransfer") → p.vaultAddress = none) ∧
    (∀ tv, mpGet a "type" = some tv → isUsdClassTransfer tv = false →
      p.vaultAddress = st.vault_address) := by
  unfold post_action at hp
  rcases hsig : sign_l1_action C st.wallet a st.vault_address n
      (decide (st.base_url = "https://api.hyperliquid.xyz")) with _ | sig
  · rw [hsig] at hp
    exact absurd hp (by simp)
  · rw [hsig] at hp
    rcases ht : mpGet a "type" with _ | tv
    · rw [ht] at hp
      exact absurd hp (by simp)
    · rw [ht] at hp
      rw [← Option.some.inj hp]
      refine ⟨rfl, rfl, rfl, fun htv => ?_, fun tv' htv' hne => ?_⟩
      · rw [Option.some.inj htv]
        rfl
      · have heq : tv = tv' := Option.some.inj htv'
        subst heq
        simp [hne]

/-- Witness state for the `_post_action` payload rules: a freshly
constructed client with a vault address poked into the `vault_address`
attribute (the code itself never assigns one — see the reachability
theorem — but `_post_action` reads whatever is configured). -/
def vaultState : ClientState :=
  { initClient constWallet "0xabc" with
    vault_address := some "0x00000000000000000000000000000000000000ff" }

/-- Witness for C4: with a configured vault address, an
`usdClassTransfer` action gets `vaultAddress = None` while an `order`
action carries the configured vault address. -/
theorem post_action_payload_fields_witness :
    (post_action constCrypto vaultState
      (MPValue.map [("type", MPValue.str "usdClassTransfer")]) 7).map Payload.vaultAddress =
      some none ∧
    (post_action constCrypto vaultState
      (MPValue.map [("type", MPValue.str "order")]) 7).map Payload.vaultAddress =
      some (some "0x00000000000000000000000000000000000000ff") := by
  have h1 : post_action constCrypto vaultState
      (MPValue.map [("type", MPValue.str "usdClassTransfer")]) 7 =
      some ⟨MPValue.map [("type", MPValue.str "usdClassTransfer")], 7,
        ⟨"0x1", "0x1", 27⟩, none⟩ := by
    with_unfolding_all rfl
  have h2 : post_action constCrypto vaultState
      (MPValue.map [("type", MPValue.str "order")]) 7 =
      some ⟨MPValue.map [("type", MPValue.str "order")], 7, ⟨"0x1", "0x1", 27⟩,
        some "0x00000000000000000000000000000000000000ff"⟩ := by
    with_unfolding_all rfl
  have w1 := (post_action_payload_fields constCrypto vaultState _ 7 _ h1).2.2.2.1 rfl
  have w2 := (post_action_payload_fields constCrypto vaultState _ 7 _ h2).2.2.2.2
    (MPValue.str "order") rfl (by decide)
  rw [h1, h2]
  exact ⟨congrArg some w1, congrArg some w2⟩

/-! ### The nonce is generated from the clock, not supplied by callers -/

/-- A concrete entered client knowing one asset. -/
def demoState : ClientState :=
  aenter (initClient constWallet "0xabc")
    [("ETH", MPValue.map [("maxLeverage", MPValue.int 50)])]

/-- C6 (refuting evidence): none of the five submission operations
takes a nonce from its caller — each generates it internally from the
wall clock.  With identical caller-supplied arguments (`"ETH"`, order id
`7`) and different ambient clock readings, the submitted nonces differ,
so the nonce is not determined by (and cannot be supplied through) the
operation's arguments. -/
theorem nonce_not_caller_supplied :
    (cancel_order constCrypto demoState "ETH" 7 1).map Payload.nonce = some 1000 ∧
    (cancel_order constCrypto demoState "ETH" 7 2).map Payload.nonce = some 2000 ∧
    (1000 : ℤ) ≠ 2000 := by
  refine ⟨?_, ?_, by decide⟩ <;> with_unfolding_all rfl

/-- C6 as amended: each of the five submission operations generates its
nonce internally as `get_timestamp_ms` of the current wall clock — the
callers of these operations cannot supply one — and that generated
timestamp is the nonce placed in the payload (and, by
`post_action_payload_fields`, the one signed). -/
theorem operations_nonce_from_clock (C : Crypto) (st : ClientState) (t : ℚ) :
    (∀ name is_buy sz limit_px ot ro p,
      place_order C st name is_buy sz limit_px ot ro t = some p →
        p.nonce = get_timestamp_ms t) ∧
    (∀ reqs p, place_orders C st reqs t = some p → p.nonce = get_timestamp_ms t) ∧
    (∀ name oid p, cancel_order C st name oid t = some p → p.nonce = get_timestamp_ms t) ∧
    (∀ reqs p, cancel_orders C st reqs t = some p → p.nonce = get_timestamp_ms t) ∧
    (∀ name lev cr p, update_leverage C st name lev cr t = some p →
      p.nonce = get_timestamp_ms t) := by
  refine ⟨fun name is_buy sz limit_px ot ro p hp => ?_, fun reqs p hp => ?_,
    fun name oid p hp => ?_, fun reqs p hp => ?_, fun name lev cr p hp => ?_⟩
  · unfold place_order at hp
    simp only [Option.bind_eq_bind, Option.bind_eq_some] at hp
    obtain ⟨asset, ha, px, hpx, s, hs, hp⟩ := hp
    exact post_action_nonce C st _ _ p hp
  · unfold place_orders at hp
    simp only [Option.bind_eq_bind, Option.bind_eq_some] at hp
    obtain ⟨wires, hw, hp⟩ := hp
    exact post_action_nonce C st _ _ p hp
  · unfold cancel_order at hp
    simp only [Option.bind_eq_bind, Option.bind_eq_some] at hp
    obtain ⟨a, ha, hp⟩ := hp
    exact post_action_nonce C st _ _ p hp
  · unfold cancel_orders at hp
    simp only [Option.bind_eq_bind, Option.bind_eq_some] at hp
    obtain ⟨cs, hc, hp⟩ := hp
    exact post_action_nonce C st _ _ p hp
  · unfold update_leverage at hp
    simp only [Option.bind_eq_bind, Option.bind_eq_some] at hp
    obtain ⟨info, hi, maxl, hml, hp⟩ := hp
    rw [ite_eq_iff] at hp
    rcases hp with ⟨_, hp⟩ | ⟨_, hp⟩
    · exact absurd hp (by simp)
    · simp only [Option.bind_eq_bind, Option.bind_eq_some] at hp
      obtain ⟨a, ha, hp⟩ := hp
      exact post_action_nonce C st _ _ p hp

/-- Witness for C6's amended statement: the cancel submitted at clock
second 1 carries nonce `get_timestamp_ms 1 = 1000`. -/
theorem operations_nonce_from_clock_witness :
    (cancel_order constCrypto demoState "ETH" 7 1).map Payload.nonce =
      some (get_timestamp_ms 1) := by
  have hp : cancel_order constCrypto demoState "ETH" 7 1 =
      some ⟨MPValue.map [("type", MPValue.str "cancel"),
        ("cancels", MPValue.arr [MPValue.map [("a", MPValue.int 0), ("o", MPValue.int 7)]])],
        1000, ⟨"0x1", "0x1", 27⟩, none⟩ := by
    with_unfolding_all rfl
  have w := (operations_nonce_from_clock constCrypto demoState 1).2.2.1 "ETH" 7 _ hp
  rw [hp]
  exact congrArg some w

/-- C9: `_handle_exception` returns normally below status 400; for a
4xx status whose body parses as a JSON object with `code` and `msg`
entries, it raises a `ClientError` carrying the body's `code` as
`error_code`, its `msg` as `error_message`, and its optional `data` as
`error_data`; for status 500 and above it raises a `ServerError`
carrying the raw body text. -/
theorem handle_exception_spec (r : HResponse) :
    (r.status < 400 → handle_exception r = .ok) ∧
    (∀ fields c m, 400 ≤ r.status → r.status < 500 →
      r.body_json = some (.obj fields) →
      dictGet fields "code" = some c → dictGet fields "msg" = some m →
      handle_exception r = .clientError ⟨r.status, .json c, .json m, .headers r.headers,
        match dictGet fields "data" with
        | some d => .json d
        | Option.none => .none⟩) ∧
    (500 ≤ r.status → handle_exception r = .serverError r.status r.body_text) := by
  refine ⟨fun h4 => ?_, fun fields c m h4 h5 hb hc hm => ?_, fun h5 => ?_⟩
  · unfold handle_exception
    rw [if_pos h4]
  · unfold handle_exception
    rw [if_neg (by omega), if_pos h5, hb]
    dsimp only
    rw [hc, hm]
  · unfold handle_exception
    rw [if_neg (by omega), if_neg (by omega)]

/-- Witness for C9 at a concrete 422 response with body
`{"code": "X", "msg": "bad nonce"}`. -/
theorem handle_exception_spec_witness :
    handle_exception ⟨422, some (.obj [("code", .str "X"), ("msg", .str "bad nonce")]),
        "body", []⟩ =
      .clientError ⟨422, .json (.str "X"), .json (.str "bad nonce"), .headers [], .none⟩ :=
  (handle_exception_spec _).2.1 [("code", .str "X"), ("msg", .str "bad nonce")]
    (.str "X") (.str "bad nonce") (by decide) (by decide) rfl rfl rfl

/-! ### The vault address is never set -/

theorem clientStep_preserves_vault (C : Crypto) {s s' : ClientState}
    (h : ClientStep C s s') : s'.vault_address = s.vault_address := by
  cases h <;> rfl

/-- C10: the client is constructed with `vault_address = None` and no
operation ever assigns it (every client step preserves it), so in every
reachable client state the vault address is `None`; consequently every
payload assembled by `_post_action` has `vaultAddress = None` for every
action type — not only for `usdClassTransfer` — and the domain-separation
marker fed to the hasher is the single byte `0x00` (the `0x01` vault
branch is unreachable). -/
theorem vault_address_never_set (C : Crypto) (wallet : TypedDataDoc → SignedMsg)
    (addr : String) (st : ClientState)
    (hreach : Relation.ReflTransGen (ClientStep C) (initClient wallet addr) st) :
    st.vault_address = none ∧
    (∀ s s' : ClientState, ClientStep C s s' → s'.vault_address = s.vault_address) ∧
    (∀ a n p, post_action C st a n = some p → p.vaultAddress = none) ∧
    (∀ a n nb, int_to_bytes_be 8 n = some nb →
      connectionData C a n st.vault_address =
        some (C.packb a ++ nb ++ [0x00])) := by
  have hnone : st.vault_address = none := by
    induction hreach with
    | refl => rfl
    | tail _ hstep ih => rw [clientStep_preserves_vault C hstep, ih]
  refine ⟨hnone, fun s s' h => clientStep_preserves_vault C h, ?_, ?_⟩
  · intro a n p hp
    unfold post_action at hp
    rw [hnone] at hp
    simp only [Option.bind_eq_bind, Option.bind_eq_some] at hp
    obtain ⟨sig, hsig, tv, htv, hp⟩ := hp
    rw [← Option.some.inj hp]
    show (if isUsdClassTransfer tv then none else none) = none
    exact ite_self none
  · intro a n nb hnb
    rw [hnone]
    unfold connectionData
    rw [hnb]
    rfl

/-- Witness for C10 at the freshly constructed client (reachable by the
empty step sequence): its vault address is `None` and a concrete
payload it produces carries `vaultAddress = None`. -/
theorem vault_address_never_set_witness :
    (initClient constWallet "0xabc").vault_address = none ∧
    (post_action constCrypto (initClient constWallet "0xabc")
      (MPValue.map [("type", MPValue.str "order")]) 7).map Payload.vaultAddress =
      some none := by
  have h := vault_address_never_set constCrypto constWallet "0xabc"
    (initClient constWallet "0xabc") Relation.ReflTransGen.refl
  have hp : post_action constCrypto (initClient constWallet "0xabc")
      (MPValue.map [("type", MPValue.str "order")]) 7 =
      some ⟨MPValue.map [("type", MPValue.str "order")], 7, ⟨"0x1", "0x1", 27⟩, none⟩ := by
    with_unfolding_all rfl
  refine ⟨h.1, ?_⟩
  rw [hp]
  exact congrArg some (h.2.2.1 _ 7 _ hp)
